import Mathlib

/-!
Verification of the symbolic Petri-net analyzer
(`petri.py`, `reachability.py`, `symbolic_bdd.py`, `deadlock_ilp.py`,
`optimization.py`, `main.py`).

Markings are bitmasks over places, exactly as in the source: bit `i` of a
`Nat` is the token count of place `i`.  The external decision-diagram
library (`dd.autoref`) is modelled semantically: a diagram over the `n`
current-state variables is the finite set of bit vectors (elements of
`Finset.range (2 ^ n)`) satisfying it; two diagrams are handle-identical
exactly when these sets are equal, which is the canonicalization invariant
of the spec's Diagram Manager.  The external ILP solver (`pulp`) is
modelled as an oracle returning one of {optimal assignment, infeasible,
inconclusive}.
-/

/-- `Transition` from `petri.py`: id, name and the two place bitmasks. -/
structure Transition where
  id : String
  name : String
  pre_mask : Nat
  post_mask : Nat
deriving DecidableEq, Repr

/-- `PetriNet` from `petri.py` (the derived `place_index` map is omitted:
places are identified with their indices `0 .. places.length - 1`). -/
structure PetriNet where
  places : List String
  transitions : List Transition
  initial : Nat
deriving DecidableEq, Repr

/-- Number of places of a net (`len(net.places)` in the source). -/
def numPlaces (net : PetriNet) : Nat := net.places.length

/-- Well-formedness guaranteed by the PNML parser (`petri.py`): every mask
and the initial marking only use bits below the place count. -/
def NetWF (net : PetriNet) : Prop :=
  net.initial < 2 ^ numPlaces net ∧
  ∀ t ∈ net.transitions,
    t.pre_mask < 2 ^ numPlaces net ∧ t.post_mask < 2 ^ numPlaces net

instance (net : PetriNet) : Decidable (NetWF net) := by
  unfold NetWF; infer_instance

/-- `is_enabled` from `reachability.py`: `(M & t.pre_mask) == t.pre_mask`. -/
def is_enabled (M : Nat) (t : Transition) : Bool :=
  (M &&& t.pre_mask) == t.pre_mask

/-- `fire` from `reachability.py`: `(M & ~t.pre_mask) | t.post_mask`.
On non-negative Python ints `M & ~p` clears exactly the bits of `p`,
which over `Nat` is `M ^^^ (M &&& p)`. -/
def fire (M : Nat) (t : Transition) : Nat :=
  (M ^^^ (M &&& t.pre_mask)) ||| t.post_mask

theorem fire_testBit (M : Nat) (t : Transition) (i : Nat) :
    (fire M t).testBit i =
      ((M.testBit i && !t.pre_mask.testBit i) || t.post_mask.testBit i) := by
  unfold fire
  rw [Nat.testBit_lor, Nat.testBit_xor, Nat.testBit_land]
  cases M.testBit i <;> cases t.pre_mask.testBit i <;>
    cases t.post_mask.testBit i <;> rfl

theorem is_enabled_iff (M : Nat) (t : Transition) :
    is_enabled M t = true ↔
      ∀ i, t.pre_mask.testBit i = true → M.testBit i = true := by
  unfold is_enabled
  rw [beq_iff_eq]
  constructor
  · intro h i hp
    have := congrArg (Nat.testBit · i) h
    simp only [Nat.testBit_land, hp, Bool.and_true] at this
    exact this
  · intro h
    apply Nat.eq_of_testBit_eq
    intro i
    rw [Nat.testBit_land]
    cases hp : t.pre_mask.testBit i
    · simp
    · simp [h i hp]

/-- C8: `is_enabled` holds exactly when every preset place holds a token,
and `fire` leaves places outside preset ∪ postset unchanged, empties
preset-only places and fills postset places. -/
theorem fire_frame_effect (M : Nat) (t : Transition) :
    (is_enabled M t = true ↔
      ∀ i, t.pre_mask.testBit i = true → M.testBit i = true) ∧
    (is_enabled M t = true → ∀ i,
      ((t.pre_mask.testBit i = false ∧ t.post_mask.testBit i = false) →
        (fire M t).testBit i = M.testBit i) ∧
      ((t.pre_mask.testBit i = true ∧ t.post_mask.testBit i = false) →
        (fire M t).testBit i = false) ∧
      (t.post_mask.testBit i = true → (fire M t).testBit i = true)) := by
  refine ⟨is_enabled_iff M t, fun _ i => ⟨?_, ?_, ?_⟩⟩
  · rintro ⟨hp, hq⟩
    rw [fire_testBit, hp, hq]
    cases M.testBit i <;> rfl
  · rintro ⟨hp, hq⟩
    rw [fire_testBit, hp, hq]
    cases M.testBit i <;> rfl
  · intro hq
    rw [fire_testBit, hq]
    cases M.testBit i <;> cases t.pre_mask.testBit i <;> rfl

/-- Witness for C8 at the transition with preset {0}, postset {1} and the
marking 0b101: place 2 is untouched, place 0 is emptied, place 1 filled. -/
theorem fire_frame_effect_witness :
    (fire 5 ⟨"t0", "t0", 1, 2⟩).testBit 2 = (5 : Nat).testBit 2 ∧
    (fire 5 ⟨"t0", "t0", 1, 2⟩).testBit 0 = false ∧
    (fire 5 ⟨"t0", "t0", 1, 2⟩).testBit 1 = true := by
  refine ⟨?_, ?_, ?_⟩
  · exact ((fire_frame_effect 5 ⟨"t0", "t0", 1, 2⟩).2 (by decide) 2).1 (by decide)
  · exact ((fire_frame_effect 5 ⟨"t0", "t0", 1, 2⟩).2 (by decide) 0).2.1 (by decide)
  · exact ((fire_frame_effect 5 ⟨"t0", "t0", 1, 2⟩).2 (by decide) 1).2.2 (by decide)

/-- Markings stay below `2 ^ n` under firing (needs only the postset bound). -/
theorem fire_lt {n : Nat} {M : Nat} {t : Transition} (hM : M < 2 ^ n)
    (hpost : t.post_mask < 2 ^ n) : fire M t < 2 ^ n := by
  unfold fire
  exact Nat.or_lt_two_pow
    (Nat.xor_lt_two_pow hM (lt_of_le_of_lt Nat.and_le_left hM)) hpost

/-- Inner loop of `bfs_reachability` (`reachability.py`): try every
transition at the dequeued marking `M`, inserting newly discovered
markings into the visited set and appending them to the queue. -/
def bfsStep (M : Nat) : List Transition → Finset Nat → List Nat →
    Finset Nat × List Nat
  | [], vis, q => (vis, q)
  | t :: ts, vis, q =>
    if is_enabled M t then
      let M2 := fire M t
      if M2 ∈ vis then bfsStep M ts vis q
      else bfsStep M ts (insert M2 vis) (q ++ [M2])
    else bfsStep M ts vis q

/-- Outer `while q` loop of `bfs_reachability`.  The fuel argument only
drives structural recursion; `bfs_reachability` supplies enough fuel that
the queue always empties first (`bfsLoop_closed` below). -/
def bfsLoop (ts : List Transition) : Nat → Finset Nat → List Nat → Finset Nat
  | _, vis, [] => vis
  | 0, vis, _ :: _ => vis
  | fuel + 1, vis, M :: rest =>
    let s := bfsStep M ts vis rest
    bfsLoop ts fuel s.1 s.2

/-- `bfs_reachability` from `reachability.py`: explicit BFS enumeration of
the reachable markings, started from the initial marking (the optional
edge and predecessor bookkeeping of the source does not affect the
visited set and is omitted). -/
def bfs_reachability (net : PetriNet) : Finset Nat :=
  bfsLoop net.transitions (2 * 2 ^ numPlaces net + 1)
    {net.initial} [net.initial]

/-- Specification-level reachability: closure of the initial marking under
firing enabled transitions. -/
inductive ReachN (net : PetriNet) : Nat → Prop where
  | init : ReachN net net.initial
  | step {M : Nat} {t : Transition} : ReachN net M → t ∈ net.transitions →
      is_enabled M t = true → ReachN net (fire M t)

theorem ReachN_lt {net : PetriNet} (hwf : NetWF net) {x : Nat}
    (hx : ReachN net x) : x < 2 ^ numPlaces net := by
  induction hx with
  | init => exact hwf.1
  | step _ ht _ ih => exact fire_lt ih ((hwf.2 _ ht).2)

theorem bfsStep_vis_subset (M : Nat) (ts : List Transition) (vis : Finset Nat)
    (q : List Nat) : vis ⊆ (bfsStep M ts vis q).1 := by
  induction ts generalizing vis q with
  | nil => exact fun x hx => hx
  | cons t ts ih =>
    unfold bfsStep
    by_cases he : is_enabled M t
    · simp only [he, if_true]
      by_cases hm : fire M t ∈ vis
      · simp only [hm, if_true]; exact ih vis q
      · simp only [hm, if_false]
        exact fun x hx => ih _ _ (Finset.mem_insert_of_mem hx)
    · simp only [he, if_false]; exact ih vis q

theorem bfsStep_mem_vis {M : Nat} {ts : List Transition} {vis : Finset Nat}
    {q : List Nat} {x : Nat} (hx : x ∈ (bfsStep M ts vis q).1) :
    x ∈ vis ∨ ∃ t ∈ ts, is_enabled M t = true ∧ x = fire M t := by
  induction ts generalizing vis q with
  | nil => exact Or.inl hx
  | cons t ts ih =>
    unfold bfsStep at hx
    by_cases he : is_enabled M t
    · simp only [he, if_true] at hx
      by_cases hm : fire M t ∈ vis
      · simp only [hm, if_true] at hx
        rcases ih hx with h | ⟨t', ht', he', hx'⟩
        · exact Or.inl h
        · exact Or.inr ⟨t', List.mem_cons_of_mem _ ht', he', hx'⟩
      · simp only [hm, if_false] at hx
        rcases ih hx with h | ⟨t', ht', he', hx'⟩
        · rcases Finset.mem_insert.mp h with h | h
          · exact Or.inr ⟨t, List.mem_cons_self _ _, he, h⟩
          · exact Or.inl h
        · exact Or.inr ⟨t', List.mem_cons_of_mem _ ht', he', hx'⟩
    · simp only [he, if_false] at hx
      rcases ih hx with h | ⟨t', ht', he', hx'⟩
      · exact Or.inl h
      · exact Or.inr ⟨t', List.mem_cons_of_mem _ ht', he', hx'⟩

theorem bfsStep_q_subset (M : Nat) (ts : List Transition) (vis : Finset Nat)
    (q : List Nat) : ∀ x ∈ q, x ∈ (bfsStep M ts vis q).2 := by
  induction ts generalizing vis q with
  | nil => exact fun x hx => hx
  | cons t ts ih =>
    unfold bfsStep
    by_cases he : is_enabled M t
    · simp only [he, if_true]
      by_cases hm : fire M t ∈ vis
      · simp only [hm, if_true]; exact ih vis q
      · simp only [hm, if_false]
        exact fun x hx => ih _ _ x (List.mem_append_left _ hx)
    · simp only [he, if_false]; exact ih vis q

theorem bfsStep_q_in_vis {M : Nat} {ts : List Transition} {vis : Finset Nat}
    {q : List Nat} (hq : ∀ x ∈ q, x ∈ vis) :
    ∀ x ∈ (bfsStep M ts vis q).2, x ∈ (bfsStep M ts vis q).1 := by
  induction ts generalizing vis q with
  | nil => exact hq
  | cons t ts ih =>
    unfold bfsStep
    by_cases he : is_enabled M t
    · simp only [he, if_true]
      by_cases hm : fire M t ∈ vis
      · simp only [hm, if_true]; exact ih hq
      · simp only [hm, if_false]
        refine ih (fun x hx => ?_)
        rcases List.mem_append.mp hx with h | h
        · exact Finset.mem_insert_of_mem (hq x h)
        · rcases List.mem_singleton.mp h with rfl
          exact Finset.mem_insert_self _ _
    · simp only [he, if_false]; exact ih hq

theorem bfsStep_processed (M : Nat) (ts : List Transition) (vis : Finset Nat)
    (q : List Nat) : ∀ t ∈ ts, is_enabled M t = true →
    fire M t ∈ (bfsStep M ts vis q).1 := by
  induction ts generalizing vis q with
  | nil => intro t ht; exact absurd ht (List.not_mem_nil t)
  | cons t ts ih =>
    intro t' ht' he'
    unfold bfsStep
    rcases List.mem_cons.mp ht' with rfl | ht'
    · simp only [he', if_true]
      by_cases hm : fire M t' ∈ vis
      · simp only [hm, if_true]
        exact bfsStep_vis_subset _ _ _ _ hm
      · simp only [hm, if_false]
        exact bfsStep_vis_subset _ _ _ _ (Finset.mem_insert_self _ _)
    · by_cases he : is_enabled M t
      · simp only [he, if_true]
        by_cases hm : fire M t ∈ vis
        · simp only [hm, if_true]; exact ih vis q t' ht' he'
        · simp only [hm, if_false]; exact ih _ _ t' ht' he'
      · simp only [he, if_false]; exact ih vis q t' ht' he'

theorem bfsStep_new_in_q {M : Nat} {ts : List Transition} {vis : Finset Nat}
    {q : List Nat} {x : Nat} (hx : x ∈ (bfsStep M ts vis q).1)
    (hnv : x ∉ vis) : x ∈ (bfsStep M ts vis q).2 := by
  induction ts generalizing vis q with
  | nil => exact absurd hx hnv
  | cons t ts ih =>
    unfold bfsStep at hx ⊢
    by_cases he : is_enabled M t
    · simp only [he, if_true] at hx ⊢
      by_cases hm : fire M t ∈ vis
      · simp only [hm, if_true] at hx ⊢; exact ih hx hnv
      · simp only [hm, if_false] at hx ⊢
        by_cases hx2 : x ∈ insert (fire M t) vis
        · exact bfsStep_q_subset _ _ _ _ x (List.mem_append_right _
            (by rcases Finset.mem_insert.mp hx2 with rfl | h
                · exact List.mem_singleton_self _
                · exact absurd h hnv))
        · exact ih hx hx2
    · simp only [he, if_false] at hx ⊢; exact ih hx hnv

theorem bfsStep_measure {n : Nat} {M : Nat} {ts : List Transition}
    {vis : Finset Nat} {q : List Nat} (hM : M < 2 ^ n)
    (hts : ∀ t ∈ ts, t.post_mask < 2 ^ n) (hq : ∀ x ∈ q, x < 2 ^ n) :
    (∀ x ∈ (bfsStep M ts vis q).2, x < 2 ^ n) ∧
    2 * ((Finset.range (2 ^ n)) \ (bfsStep M ts vis q).1).card +
        (bfsStep M ts vis q).2.length ≤
      2 * ((Finset.range (2 ^ n)) \ vis).card + q.length := by
  induction ts generalizing vis q with
  | nil => exact ⟨hq, le_refl _⟩
  | cons t ts ih =>
    unfold bfsStep
    by_cases he : is_enabled M t
    · simp only [he, if_true]
      by_cases hm : fire M t ∈ vis
      · simp only [hm, if_true]
        exact ih (fun t' ht' => hts t' (List.mem_cons_of_mem _ ht')) hq
      · simp only [hm, if_false]
        have hfl : fire M t < 2 ^ n :=
          fire_lt hM (hts t (List.mem_cons_self _ _))
        have hq' : ∀ x ∈ q ++ [fire M t], x < 2 ^ n := by
          intro x hx
          rcases List.mem_append.mp hx with h | h
          · exact hq x h
          · rcases List.mem_singleton.mp h with rfl; exact hfl
        have hih := @ih (insert (fire M t) vis) (q ++ [fire M t])
          (fun t' ht' => hts t' (List.mem_cons_of_mem _ ht')) hq'
        refine ⟨hih.1, le_trans hih.2 ?_⟩
        have hss : (Finset.range (2 ^ n)) \ insert (fire M t) vis ⊂
            (Finset.range (2 ^ n)) \ vis := by
          refine ⟨Finset.sdiff_subset_sdiff (le_refl _)
            (Finset.subset_insert _ _), fun hcon => ?_⟩
          have : fire M t ∈ (Finset.range (2 ^ n)) \ insert (fire M t) vis :=
            hcon (Finset.mem_sdiff.mpr ⟨Finset.mem_range.mpr hfl, hm⟩)
          exact (Finset.mem_sdiff.mp this).2 (Finset.mem_insert_self _ _)
        have hcard := Finset.card_lt_card hss
        simp only [List.length_append, List.length_singleton]
        omega
    · simp only [he, if_false]
      exact ih (fun t' ht' => hts t' (List.mem_cons_of_mem _ ht')) hq

theorem bfsStep_sound {net : PetriNet} {M : Nat} {vis : Finset Nat}
    {q : List Nat} (hM : ReachN net M) (hvis : ∀ x ∈ vis, ReachN net x) :
    ∀ x ∈ (bfsStep M net.transitions vis q).1, ReachN net x := by
  intro x hx
  rcases bfsStep_mem_vis hx with h | ⟨t, ht, he, rfl⟩
  · exact hvis x h
  · exact ReachN.step hM ht he

theorem bfsLoop_vis_subset (ts : List Transition) (fuel : Nat)
    (vis : Finset Nat) (q : List Nat) : vis ⊆ bfsLoop ts fuel vis q := by
  induction fuel generalizing vis q with
  | zero => cases q with
    | nil => exact fun x hx => hx
    | cons M rest => exact fun x hx => hx
  | succ fuel ih =>
    cases q with
    | nil => exact fun x hx => hx
    | cons M rest =>
      exact fun x hx => ih _ _ (bfsStep_vis_subset M ts vis rest hx)

theorem bfsLoop_sound {net : PetriNet} {fuel : Nat} {vis : Finset Nat}
    {q : List Nat} (hvis : ∀ x ∈ vis, ReachN net x)
    (hqv : ∀ x ∈ q, x ∈ vis) :
    ∀ x ∈ bfsLoop net.transitions fuel vis q, ReachN net x := by
  induction fuel generalizing vis q with
  | zero => cases q with
    | nil => exact hvis
    | cons M rest => exact hvis
  | succ fuel ih =>
    cases q with
    | nil => exact hvis
    | cons M rest =>
      refine ih (bfsStep_sound (hvis M (hqv M (List.mem_cons_self _ _))) hvis)
        (bfsStep_q_in_vis (fun x hx => hqv x (List.mem_cons_of_mem _ hx)))

theorem bfsLoop_closed {n : Nat} {ts : List Transition} {fuel : Nat}
    {vis : Finset Nat} {q : List Nat}
    (hts : ∀ t ∈ ts, t.post_mask < 2 ^ n) (hq : ∀ x ∈ q, x < 2 ^ n)
    (hqv : ∀ x ∈ q, x ∈ vis)
    (hinv : ∀ x ∈ vis, x ∈ q ∨
      ∀ t ∈ ts, is_enabled x t = true → fire x t ∈ vis)
    (hfuel : 2 * ((Finset.range (2 ^ n)) \ vis).card + q.length ≤ fuel) :
    ∀ x ∈ bfsLoop ts fuel vis q, ∀ t ∈ ts, is_enabled x t = true →
      fire x t ∈ bfsLoop ts fuel vis q := by
  induction fuel generalizing vis q with
  | zero =>
    cases q with
    | nil =>
      intro x hx t ht he
      rcases hinv x hx with h | h
      · exact absurd h (List.not_mem_nil x)
      · exact h t ht he
    | cons M rest => simp at hfuel
  | succ fuel ih =>
    cases q with
    | nil =>
      intro x hx t ht he
      rcases hinv x hx with h | h
      · exact absurd h (List.not_mem_nil x)
      · exact h t ht he
    | cons M rest =>
      have hM : M < 2 ^ n := hq M (List.mem_cons_self _ _)
      have hrest : ∀ x ∈ rest, x < 2 ^ n :=
        fun x hx => hq x (List.mem_cons_of_mem _ hx)
      have hmeas := @bfsStep_measure n M ts vis rest hM hts hrest
      refine ih hmeas.1
        (bfsStep_q_in_vis (fun x hx => hqv x (List.mem_cons_of_mem _ hx)))
        ?_ ?_
      · intro x hx
        by_cases hxv : x ∈ vis
        · rcases hinv x hxv with h | h
          · rcases List.mem_cons.mp h with rfl | h
            · exact Or.inr (bfsStep_processed x ts vis rest)
            · exact Or.inl (bfsStep_q_subset M ts vis rest x h)
          · exact Or.inr (fun t ht he =>
              bfsStep_vis_subset M ts vis rest (h t ht he))
        · exact Or.inl (bfsStep_new_in_q hx hxv)
      · have := hmeas.2
        simp only [List.length_cons] at hfuel
        omega

/-- BFS characterization: the visited set of `bfs_reachability` is exactly
the closure of the initial marking under firing. -/
theorem bfs_reachability_spec {net : PetriNet} (hwf : NetWF net) :
    ∀ x, x ∈ bfs_reachability net ↔ ReachN net x := by
  intro x
  constructor
  · intro hx
    refine bfsLoop_sound (fun y hy => ?_) (fun y hy => ?_) x hx
    · rcases Finset.mem_singleton.mp hy with rfl; exact ReachN.init
    · rcases List.mem_singleton.mp hy with rfl
      exact Finset.mem_singleton_self _
  · intro hx
    induction hx with
    | init =>
      exact bfsLoop_vis_subset _ _ _ _ (Finset.mem_singleton_self _)
    | step hM ht he ih =>
      refine @bfsLoop_closed (numPlaces net) net.transitions
        (2 * 2 ^ numPlaces net + 1) {net.initial} [net.initial]
        (fun t' ht' => (hwf.2 t' ht').2) ?_ ?_ ?_ ?_ _ ih _ ht he
      · intro y hy
        rcases List.mem_singleton.mp hy with rfl; exact hwf.1
      · intro y hy
        rcases List.mem_singleton.mp hy with rfl
        exact Finset.mem_singleton_self _
      · intro y hy
        rcases Finset.mem_singleton.mp hy with rfl
        exact Or.inl (List.mem_singleton_self _)
      · have h1 : ((Finset.range (2 ^ numPlaces net)) \ {net.initial}).card ≤
            2 ^ numPlaces net := by
          calc ((Finset.range (2 ^ numPlaces net)) \ {net.initial}).card ≤
              (Finset.range (2 ^ numPlaces net)).card :=
                Finset.card_le_card (Finset.sdiff_subset)
            _ = 2 ^ numPlaces net := Finset.card_range _
        simp only [List.length_singleton]
        omega

/-- Per-place clause of the transition relation built by
`build_reachability_bdd` (`symbolic_bdd.py`): 1→0 on preset-only places,
0→1 on postset-only places, 1→1 on places in both, unchanged elsewhere. -/
def relClause (t : Transition) (M M' : Nat) (i : Nat) : Bool :=
  let x := M.testBit i
  let xnext := M'.testBit i
  if t.pre_mask.testBit i && !t.post_mask.testBit i then x && !xnext
  else if !t.pre_mask.testBit i && t.post_mask.testBit i then !x && xnext
  else if t.pre_mask.testBit i && t.post_mask.testBit i then x && xnext
  else (x && xnext) || (!x && !xnext)

/-- Enabling predicate of `build_reachability_bdd`: conjunction of the
current-state variables of the preset places. -/
def enabledBdd (n : Nat) (t : Transition) (M : Nat) : Bool :=
  (List.range n).all fun i => !t.pre_mask.testBit i || M.testBit i

/-- Modelled from the spec: the Diagram Manager (`dd.autoref`, external to
the repository) represents a boolean function canonically, so a
per-transition relation diagram is modelled by its satisfaction predicate
over pairs of bit vectors.  `transRelB` is the conjunction
`enabled ∧ relation` built per transition in `build_reachability_bdd`. -/
def transRelB (n : Nat) (t : Transition) (M M' : Nat) : Bool :=
  enabledBdd n t M && (List.range n).all (relClause t M M')

/-- Modelled from the spec: `exist`/`let` image computation of the Diagram
Manager.  Intersecting `R` with the relation, projecting out the current
variables and renaming next to current yields exactly the successors of
`R` under the relation, as a set of bit vectors over `n` variables. -/
def imageT (n : Nat) (t : Transition) (R : Finset Nat) : Finset Nat :=
  (Finset.range (2 ^ n)).filter fun M2 => ∃ M ∈ R, transRelB n t M M2 = true

/-- The inner `for tr in trans_bdds` loop of the fixed point in
`build_reachability_bdd`: union of all per-transition images (skipping
empty intersections, which does not change the union). -/
def imageStep (ts : List Transition) (n : Nat) (R : Finset Nat) : Finset Nat :=
  ts.foldl (fun acc t => acc ∪ imageT n t R) ∅

/-- One image-and-union step of the fixed point:
`R_new = R ∨ R_next` in `build_reachability_bdd`. -/
def stepUnion (ts : List Transition) (n : Nat) (R : Finset Nat) : Finset Nat :=
  R ∪ imageStep ts n R

/-- Initial-state diagram of `build_reachability_bdd`: conjunction of one
literal per place, satisfied exactly by bit vectors agreeing with the
initial marking on every place variable. -/
def initBdd (net : PetriNet) : Finset Nat :=
  (Finset.range (2 ^ numPlaces net)).filter fun M =>
    (List.range (numPlaces net)).all fun i =>
      M.testBit i == net.initial.testBit i

/-- The `while True` fixed-point loop of `build_reachability_bdd`: iterate
`R ← R ∪ image(R)` until one more step leaves the diagram identical
(handle identity = set equality by canonicalization).  The fuel only
drives structural recursion; `build_reachability_bdd` supplies enough
(`bddFix_fix` below shows the fixed point is always reached). -/
def bddFix (ts : List Transition) (n : Nat) : Nat → Finset Nat → Finset Nat
  | 0, R => R
  | fuel + 1, R =>
    let R2 := stepUnion ts n R
    if R2 = R then R else bddFix ts n fuel R2

/-- `build_reachability_bdd` from `symbolic_bdd.py`, modelled by the set
of bit vectors satisfying the returned diagram `R`. -/
def build_reachability_bdd (net : PetriNet) : Finset Nat :=
  bddFix net.transitions (numPlaces net) (2 ^ numPlaces net + 1)
    (initBdd net)

/-- `build_symbolic_reachability` from `symbolic_bdd.py`:
`bdd.count(R, nvars=len(curr_vars))`, i.e. the number of satisfying bit
vectors of the reachable-set diagram. -/
def build_symbolic_reachability (net : PetriNet) : Nat :=
  (build_reachability_bdd net).card

/-- The substitution point built by `is_marking_reachable_bdd`: variable
`i` receives bit `(M >> i) & 1`, for `i` ranging over the `n` current
variables only; the resulting total assignment is encoded back as a bit
vector. -/
def packLowBits (M : Nat) (n : Nat) : Nat :=
  (List.range n).foldl
    (fun acc i => if M.testBit i then acc ||| 1 <<< i else acc) 0

/-- `is_marking_reachable_bdd` from `symbolic_bdd.py`: substitute the low
`n` bits of `M` for the current-state variables of `R` and test whether
the resulting node is the TRUE diagram. -/
def is_marking_reachable_bdd (M : Nat) (R : Finset Nat) (n : Nat) : Bool :=
  decide (packLowBits M n ∈ R)

theorem packLowBits_testBit (M n j : Nat) :
    (packLowBits M n).testBit j = (decide (j < n) && M.testBit j) := by
  unfold packLowBits
  induction n with
  | zero => simp [Nat.zero_testBit]
  | succ n ih =>
    rw [List.range_succ, List.foldl_append, List.foldl_cons, List.foldl_nil]
    by_cases hb : M.testBit n = true
    · rw [if_pos hb]
      rw [Nat.testBit_lor, ih, Nat.one_shiftLeft]
      by_cases hj : j = n
      · subst hj
        simp [Nat.testBit_two_pow_self, hb]
      · rw [Nat.testBit_two_pow_of_ne (fun h => hj h.symm)]
        rcases Nat.lt_or_ge j n with h | h
        · simp [h, Nat.lt_succ_of_lt h]
        · have h1 : ¬ j < n := Nat.not_lt.mpr h
          have h2 : ¬ j < n + 1 := fun hc => hj (Nat.le_antisymm
            (Nat.lt_succ_iff.mp hc) h)
          simp [h1, h2]
    · rw [if_neg hb]
      rw [ih]
      by_cases hj : j = n
      · subst hj
        simp only [hb, decide_False, Bool.false_and, Bool.and_false]
      · rcases Nat.lt_or_ge j n with h | h
        · simp [h, Nat.lt_succ_of_lt h]
        · have h1 : ¬ j < n := Nat.not_lt.mpr h
          have h2 : ¬ j < n + 1 := fun hc => hj (Nat.le_antisymm
            (Nat.lt_succ_iff.mp hc) h)
          simp [h1, h2]

theorem packLowBits_eq_mod (M n : Nat) : packLowBits M n = M % 2 ^ n := by
  apply Nat.eq_of_testBit_eq
  intro j
  rw [packLowBits_testBit, Nat.testBit_mod_two_pow, Bool.and_comm]

/-- C10: the membership oracle depends only on bits 0 .. n-1 of `M`. -/
theorem is_marking_reachable_low_bits (M M2 : Nat) (R : Finset Nat) (n : Nat)
    (h : ∀ i < n, M.testBit i = M2.testBit i) :
    is_marking_reachable_bdd M R n = is_marking_reachable_bdd M2 R n := by
  unfold is_marking_reachable_bdd
  rw [packLowBits_eq_mod, packLowBits_eq_mod]
  have : M % 2 ^ n = M2 % 2 ^ n := by
    apply Nat.eq_of_testBit_eq
    intro j
    rw [Nat.testBit_mod_two_pow, Nat.testBit_mod_two_pow]
    by_cases hj : j < n
    · simp [hj, h j hj]
    · simp [hj]
  rw [this]

/-- Witness for C10: 5 = 0b101 and 1 = 0b001 agree on the two low bits, so
with two places the oracle treats them identically. -/
theorem is_marking_reachable_low_bits_witness :
    (∀ i < 2, (5 : Nat).testBit i = (1 : Nat).testBit i) ∧
    is_marking_reachable_bdd 5 {1} 2 = is_marking_reachable_bdd 1 {1} 2 :=
  ⟨by decide, is_marking_reachable_low_bits 5 1 {1} 2 (by decide)⟩

theorem testBit_true_lt {m n i : Nat} (h : m < 2 ^ n)
    (hb : m.testBit i = true) : i < n := by
  by_contra hc
  have h2 : m < 2 ^ i :=
    lt_of_lt_of_le h (Nat.pow_le_pow_right (by norm_num) (Nat.not_lt.mp hc))
  rw [Nat.testBit_eq_false_of_lt h2] at hb
  exact Bool.false_ne_true hb

/-- 1-safety side condition encoded by the relation diagram: the mask of
postset-only places (`post & ~pre` over Python ints). -/
def contactMask (t : Transition) : Nat :=
  t.post_mask ^^^ (t.post_mask &&& t.pre_mask)

theorem contactMask_testBit (t : Transition) (i : Nat) :
    (contactMask t).testBit i =
      (t.post_mask.testBit i && !t.pre_mask.testBit i) := by
  unfold contactMask
  rw [Nat.testBit_xor, Nat.testBit_land]
  cases t.post_mask.testBit i <;> cases t.pre_mask.testBit i <;> rfl

theorem and_contactMask_eq_zero_iff (M : Nat) (t : Transition) :
    M &&& contactMask t = 0 ↔
      ∀ i, (M.testBit i && (t.post_mask.testBit i &&
        !t.pre_mask.testBit i)) = false := by
  constructor
  · intro h i
    have := congrArg (Nat.testBit · i) h
    simp only [Nat.testBit_land, contactMask_testBit, Nat.zero_testBit]
      at this
    exact this
  · intro h
    apply Nat.eq_of_testBit_eq
    intro i
    rw [Nat.zero_testBit, Nat.testBit_land, contactMask_testBit]
    exact h i

theorem enabledBdd_iff {n : Nat} {t : Transition} (hpre : t.pre_mask < 2 ^ n)
    (M : Nat) : enabledBdd n t M = true ↔ is_enabled M t = true := by
  unfold enabledBdd
  rw [List.all_eq_true]
  constructor
  · intro h
    apply (is_enabled_iff M t).mpr
    intro i hp
    have hi : i < n := testBit_true_lt hpre hp
    have := h i (List.mem_range.mpr hi)
    rw [hp] at this
    simpa using this
  · intro he i _
    cases hp : t.pre_mask.testBit i
    · simp
    · simp [(is_enabled_iff M t).mp he i hp]

theorem relClause_iff (t : Transition) (M M2 i : Nat) :
    relClause t M M2 i = true ↔
      ((t.pre_mask.testBit i = true → M.testBit i = true) ∧
       (t.post_mask.testBit i = true ∧ t.pre_mask.testBit i = false →
          M.testBit i = false) ∧
       M2.testBit i =
         ((M.testBit i && !t.pre_mask.testBit i) || t.post_mask.testBit i)) := by
  cases hp : t.pre_mask.testBit i <;> cases hq : t.post_mask.testBit i <;>
    cases hx : M.testBit i <;> cases hx2 : M2.testBit i <;>
    simp [relClause, hp, hq, hx, hx2]

/-- The per-transition relation diagram of `build_reachability_bdd` is
satisfied by `(M, M2)` exactly when `t` is enabled at `M`, no postset-only
place of `t` holds a token in `M` (the 1-safety side condition the
diagram encodes), and `M2` is the firing result. -/
theorem transRelB_iff {n : Nat} {t : Transition} {M M2 : Nat}
    (hpre : t.pre_mask < 2 ^ n) (hpost : t.post_mask < 2 ^ n)
    (hM : M < 2 ^ n) (hM2 : M2 < 2 ^ n) :
    transRelB n t M M2 = true ↔
      (is_enabled M t = true ∧ M &&& contactMask t = 0 ∧
        M2 = fire M t) := by
  unfold transRelB
  rw [Bool.and_eq_true, List.all_eq_true, enabledBdd_iff hpre]
  have hbig : ∀ j, ¬ j < n → M.testBit j = false ∧ M2.testBit j = false ∧
      t.pre_mask.testBit j = false ∧ t.post_mask.testBit j = false := by
    intro j hj
    have hle : (2 : Nat) ^ n ≤ 2 ^ j :=
      Nat.pow_le_pow_right (by norm_num) (Nat.not_lt.mp hj)
    exact ⟨Nat.testBit_eq_false_of_lt (lt_of_lt_of_le hM hle),
      Nat.testBit_eq_false_of_lt (lt_of_lt_of_le hM2 hle),
      Nat.testBit_eq_false_of_lt (lt_of_lt_of_le hpre hle),
      Nat.testBit_eq_false_of_lt (lt_of_lt_of_le hpost hle)⟩
  constructor
  · rintro ⟨hen, hcl⟩
    have hcl2 : ∀ j < n, relClause t M M2 j = true :=
      fun j hj => hcl j (List.mem_range.mpr hj)
    refine ⟨hen, ?_, ?_⟩
    · rw [and_contactMask_eq_zero_iff]
      intro j
      by_cases hj : j < n
      · have h3 := ((relClause_iff t M M2 j).mp (hcl2 j hj)).2.1
        cases hq : t.post_mask.testBit j <;>
          cases hp : t.pre_mask.testBit j <;> simp_all
      · simp [(hbig j hj).1]
    · apply Nat.eq_of_testBit_eq
      intro j
      by_cases hj : j < n
      · rw [fire_testBit]
        exact ((relClause_iff t M M2 j).mp (hcl2 j hj)).2.2
      · rw [(hbig j hj).2.1, fire_testBit, (hbig j hj).1,
          (hbig j hj).2.2.2]
        rfl
  · rintro ⟨hen, hcf, rfl⟩
    refine ⟨hen, fun j _ => ?_⟩
    rw [and_contactMask_eq_zero_iff] at hcf
    refine (relClause_iff t M (fire M t) j).mpr
      ⟨(is_enabled_iff M t).mp hen j, fun hc => ?_, fire_testBit M t j⟩
    have := hcf j
    rw [hc.1, hc.2] at this
    simpa using this

theorem imageT_mem {n : Nat} {t : Transition} {R : Finset Nat} {x : Nat} :
    x ∈ imageT n t R ↔
      x < 2 ^ n ∧ ∃ M ∈ R, transRelB n t M x = true := by
  unfold imageT
  rw [Finset.mem_filter, Finset.mem_range]

theorem imageT_mono {n : Nat} {t : Transition} {R S : Finset Nat}
    (h : R ⊆ S) : imageT n t R ⊆ imageT n t S := by
  intro x hx
  rcases imageT_mem.mp hx with ⟨hlt, M, hM, hrel⟩
  exact imageT_mem.mpr ⟨hlt, M, h hM, hrel⟩

theorem imageT_subset_range (n : Nat) (t : Transition) (R : Finset Nat) :
    imageT n t R ⊆ Finset.range (2 ^ n) :=
  Finset.filter_subset _ _

theorem foldl_union_mem {n : Nat} {R : Finset Nat} {x : Nat}
    (ts : List Transition) (acc : Finset Nat) :
    x ∈ ts.foldl (fun acc t => acc ∪ imageT n t R) acc ↔
      x ∈ acc ∨ ∃ t ∈ ts, x ∈ imageT n t R := by
  induction ts generalizing acc with
  | nil => simp
  | cons t ts ih =>
    rw [List.foldl_cons, ih, Finset.mem_union]
    constructor
    · rintro (⟨h | h⟩ | ⟨t', ht', h⟩)
      · exact Or.inl h
      · exact Or.inr ⟨t, List.mem_cons_self _ _, h⟩
      · exact Or.inr ⟨t', List.mem_cons_of_mem _ ht', h⟩
    · rintro (h | ⟨t', ht', h⟩)
      · exact Or.inl (Or.inl h)
      · rcases List.mem_cons.mp ht' with rfl | ht'
        · exact Or.inl (Or.inr h)
        · exact Or.inr ⟨t', ht', h⟩

theorem imageStep_mem {ts : List Transition} {n : Nat} {R : Finset Nat}
    {x : Nat} : x ∈ imageStep ts n R ↔ ∃ t ∈ ts, x ∈ imageT n t R := by
  unfold imageStep
  rw [foldl_union_mem]
  simp

theorem imageStep_mono {ts : List Transition} {n : Nat} {R S : Finset Nat}
    (h : R ⊆ S) : imageStep ts n R ⊆ imageStep ts n S := by
  intro x hx
  rcases imageStep_mem.mp hx with ⟨t, ht, hxt⟩
  exact imageStep_mem.mpr ⟨t, ht, imageT_mono h hxt⟩

theorem imageStep_subset_range (ts : List Transition) (n : Nat)
    (R : Finset Nat) : imageStep ts n R ⊆ Finset.range (2 ^ n) := by
  intro x hx
  rcases imageStep_mem.mp hx with ⟨t, _, hxt⟩
  exact imageT_subset_range n t R hxt

/-- C7 core fact: each iterate contains the previous one. -/
theorem subset_stepUnion (ts : List Transition) (n : Nat) (R : Finset Nat) :
    R ⊆ stepUnion ts n R :=
  Finset.subset_union_left

theorem stepUnion_mono {ts : List Transition} {n : Nat} {R S : Finset Nat}
    (h : R ⊆ S) : stepUnion ts n R ⊆ stepUnion ts n S :=
  Finset.union_subset_union h (imageStep_mono h)

theorem bddFix_subset (ts : List Transition) (n : Nat) (fuel : Nat)
    (R : Finset Nat) : R ⊆ bddFix ts n fuel R := by
  induction fuel generalizing R with
  | zero => exact fun x hx => hx
  | succ fuel ih =>
    unfold bddFix
    by_cases h : stepUnion ts n R = R
    · simp only [h, if_true]; exact fun x hx => hx
    · simp only [h, if_false]
      exact fun x hx => ih _ (subset_stepUnion ts n R hx)

theorem bddFix_iterate (ts : List Transition) (n : Nat) (fuel : Nat)
    (R : Finset Nat) :
    ∃ k ≤ fuel, bddFix ts n fuel R = (stepUnion ts n)^[k] R := by
  induction fuel generalizing R with
  | zero => exact ⟨0, le_refl _, rfl⟩
  | succ fuel ih =>
    unfold bddFix
    by_cases h : stepUnion ts n R = R
    · exact ⟨0, Nat.zero_le _, by simp [h]⟩
    · simp only [h, if_false]
      rcases ih (stepUnion ts n R) with ⟨k, hk, heq⟩
      exact ⟨k + 1, Nat.succ_le_succ hk,
        by rw [heq, Function.iterate_succ_apply]⟩

theorem bddFix_fix {ts : List Transition} {n : Nat} {fuel : Nat}
    {R : Finset Nat}
    (hfuel : ((Finset.range (2 ^ n)) \ R).card < fuel) :
    stepUnion ts n (bddFix ts n fuel R) = bddFix ts n fuel R := by
  induction fuel generalizing R with
  | zero => exact absurd hfuel (Nat.not_lt_zero _)
  | succ fuel ih =>
    unfold bddFix
    by_cases h : stepUnion ts n R = R
    · rw [if_pos h]; exact h
    · simp only [h, if_false]
      apply ih
      have hss : (Finset.range (2 ^ n)) \ stepUnion ts n R ⊂
          (Finset.range (2 ^ n)) \ R := by
        refine ⟨Finset.sdiff_subset_sdiff (le_refl _)
          (subset_stepUnion ts n R), fun hcon => ?_⟩
        rcases Finset.not_subset.mp
          (fun hsub => h (Finset.Subset.antisymm hsub
            (subset_stepUnion ts n R))) with ⟨x, hx1, hx2⟩
        rcases Finset.mem_union.mp hx1 with hx3 | hx3
        · exact hx2 hx3
        · have hxr : x ∈ Finset.range (2 ^ n) :=
            imageStep_subset_range ts n R hx3
          have := hcon (Finset.mem_sdiff.mpr ⟨hxr, hx2⟩)
          exact (Finset.mem_sdiff.mp this).2 hx1
      have := Finset.card_lt_card hss
      omega

theorem bddFix_least {ts : List Transition} {n : Nat} {fuel : Nat}
    {R S : Finset Nat} (hRS : R ⊆ S) (hS : imageStep ts n S ⊆ S) :
    bddFix ts n fuel R ⊆ S := by
  induction fuel generalizing R with
  | zero => exact hRS
  | succ fuel ih =>
    unfold bddFix
    by_cases h : stepUnion ts n R = R
    · simp only [h, if_true]; exact hRS
    · simp only [h, if_false]
      exact ih (Finset.union_subset hRS
        (le_trans (imageStep_mono hRS) hS))

theorem bddFix_subset_range {ts : List Transition} {n : Nat} {fuel : Nat}
    {R : Finset Nat} (hR : R ⊆ Finset.range (2 ^ n)) :
    bddFix ts n fuel R ⊆ Finset.range (2 ^ n) := by
  induction fuel generalizing R with
  | zero => exact hR
  | succ fuel ih =>
    unfold bddFix
    by_cases h : stepUnion ts n R = R
    · simp only [h, if_true]; exact hR
    · simp only [h, if_false]
      exact ih (Finset.union_subset hR (imageStep_subset_range ts n R))

theorem initBdd_eq {net : PetriNet} (hinit : net.initial < 2 ^ numPlaces net) :
    initBdd net = {net.initial} := by
  ext M
  unfold initBdd
  rw [Finset.mem_filter, Finset.mem_range, List.all_eq_true,
    Finset.mem_singleton]
  constructor
  · rintro ⟨hlt, hall⟩
    apply Nat.eq_of_testBit_eq
    intro j
    by_cases hj : j < numPlaces net
    · exact beq_iff_eq.mp (hall j (List.mem_range.mpr hj))
    · have hle : (2 : Nat) ^ numPlaces net ≤ 2 ^ j :=
        Nat.pow_le_pow_right (by norm_num) (Nat.not_lt.mp hj)
      rw [Nat.testBit_eq_false_of_lt (lt_of_lt_of_le hlt hle),
        Nat.testBit_eq_false_of_lt (lt_of_lt_of_le hinit hle)]
  · rintro rfl
    exact ⟨hinit, fun j _ => beq_iff_eq.mpr rfl⟩

/-- 1-safety of the net (the standing assumption of the whole system, cf.
the spec's contact-free firing discipline): at every marking the explicit
enumeration reaches, no enabled transition has a token on a postset-only
place. -/
def OneSafe (net : PetriNet) : Prop :=
  ∀ M ∈ bfs_reachability net, ∀ t ∈ net.transitions,
    is_enabled M t = true → M &&& contactMask t = 0

instance (net : PetriNet) : Decidable (OneSafe net) := by
  unfold OneSafe; infer_instance

theorem bdd_subset_bfs {net : PetriNet} (hwf : NetWF net) :
    build_reachability_bdd net ⊆ bfs_reachability net := by
  unfold build_reachability_bdd
  apply bddFix_least
  · rw [initBdd_eq hwf.1]
    intro x hx
    rcases Finset.mem_singleton.mp hx with rfl
    exact (bfs_reachability_spec hwf _).mpr ReachN.init
  · intro x hx
    rcases imageStep_mem.mp hx with ⟨t, ht, hxt⟩
    rcases imageT_mem.mp hxt with ⟨hlt, M, hM, hrel⟩
    have hMre : ReachN net M := (bfs_reachability_spec hwf M).mp hM
    rcases (transRelB_iff (hwf.2 t ht).1 (hwf.2 t ht).2
      (ReachN_lt hwf hMre) hlt).mp hrel with ⟨hen, _, rfl⟩
    exact (bfs_reachability_spec hwf _).mpr (ReachN.step hMre ht hen)

theorem bfs_subset_bdd {net : PetriNet} (hwf : NetWF net)
    (hsafe : OneSafe net) :
    bfs_reachability net ⊆ build_reachability_bdd net := by
  intro x hx
  have hre := (bfs_reachability_spec hwf x).mp hx
  clear hx
  induction hre with
  | init =>
    apply bddFix_subset
    rw [initBdd_eq hwf.1]
    exact Finset.mem_singleton_self _
  | step hM ht hen ih =>
    rename_i M t
    have hfix : stepUnion net.transitions (numPlaces net)
        (build_reachability_bdd net) = build_reachability_bdd net := by
      apply bddFix_fix
      have h1 : ((Finset.range (2 ^ numPlaces net)) \ initBdd net).card ≤
          2 ^ numPlaces net := by
        calc ((Finset.range (2 ^ numPlaces net)) \ initBdd net).card ≤
            (Finset.range (2 ^ numPlaces net)).card :=
              Finset.card_le_card (Finset.sdiff_subset)
          _ = 2 ^ numPlaces net := Finset.card_range _
      omega
    rw [← hfix]
    apply Finset.mem_union_right
    apply imageStep_mem.mpr
    refine ⟨t, ht, imageT_mem.mpr ⟨fire_lt (ReachN_lt hwf hM)
      ((hwf.2 t ht).2), M, ih, ?_⟩⟩
    exact (transRelB_iff (hwf.2 t ht).1 (hwf.2 t ht).2 (ReachN_lt hwf hM)
      (fire_lt (ReachN_lt hwf hM) ((hwf.2 t ht).2))).mpr
      ⟨hen, hsafe M ((bfs_reachability_spec hwf M).mpr hM) t ht hen, rfl⟩

/-- C1: for a 1-safe net, the symbolic reachable set agrees exactly with
the BFS visited set: the sets are equal, the membership oracle answers
exactly BFS membership for every bit vector over the places, and the
state counts coincide. -/
theorem bdd_bfs_agreement (net : PetriNet) (hwf : NetWF net)
    (hsafe : OneSafe net) :
    build_reachability_bdd net = bfs_reachability net ∧
    (∀ M < 2 ^ numPlaces net,
      (is_marking_reachable_bdd M (build_reachability_bdd net)
          (numPlaces net) = true ↔ M ∈ bfs_reachability net)) ∧
    build_symbolic_reachability net = (bfs_reachability net).card := by
  have heq : build_reachability_bdd net = bfs_reachability net :=
    Finset.Subset.antisymm (bdd_subset_bfs hwf) (bfs_subset_bdd hwf hsafe)
  refine ⟨heq, fun M hM => ?_, by rw [build_symbolic_reachability, heq]⟩
  unfold is_marking_reachable_bdd
  rw [packLowBits_eq_mod, Nat.mod_eq_of_lt hM, decide_eq_true_iff, heq]

/-- A two-place net (preset {0}, postset {1}, initially place 0 marked)
used as the concrete witness net for C1. -/
def netA : PetriNet := ⟨["p0", "p1"], [⟨"t", "t", 1, 2⟩], 1⟩

/-- Witness for C1: `netA` is well-formed and 1-safe, so the agreement
theorem applies to it. -/
theorem bdd_bfs_agreement_witness :
    NetWF netA ∧ OneSafe netA ∧
      (build_reachability_bdd netA = bfs_reachability netA ∧
       (∀ M < 2 ^ numPlaces netA,
         (is_marking_reachable_bdd M (build_reachability_bdd netA)
             (numPlaces netA) = true ↔ M ∈ bfs_reachability netA)) ∧
       build_symbolic_reachability netA = (bfs_reachability netA).card) :=
  ⟨by decide, by decide, bdd_bfs_agreement netA (by decide) (by decide)⟩


theorem build_reachability_bdd_fix (net : PetriNet) :
    stepUnion net.transitions (numPlaces net) (build_reachability_bdd net) =
      build_reachability_bdd net := by
  apply bddFix_fix
  have h1 : ((Finset.range (2 ^ numPlaces net)) \ initBdd net).card ≤
      2 ^ numPlaces net := by
    calc ((Finset.range (2 ^ numPlaces net)) \ initBdd net).card ≤
        (Finset.range (2 ^ numPlaces net)).card :=
          Finset.card_le_card (Finset.sdiff_subset)
      _ = 2 ^ numPlaces net := Finset.card_range _
  omega

/-- C6: the fixed-point loop of `build_reachability_bdd` terminates for
every net: the returned diagram is reached from the initial diagram by
finitely many image-and-union steps, one more step leaves it identical
(the loop's exit condition), and it holds at most `2 ^ (place count)`
markings. -/
theorem bdd_fixpoint_terminates (net : PetriNet) :
    (∃ k ≤ 2 ^ numPlaces net + 1,
      (stepUnion net.transitions (numPlaces net))^[k] (initBdd net) =
        build_reachability_bdd net) ∧
    stepUnion net.transitions (numPlaces net) (build_reachability_bdd net) =
      build_reachability_bdd net ∧
    (build_reachability_bdd net).card ≤ 2 ^ numPlaces net := by
  refine ⟨?_, build_reachability_bdd_fix net, ?_⟩
  · rcases bddFix_iterate net.transitions (numPlaces net)
      (2 ^ numPlaces net + 1) (initBdd net) with ⟨k, hk, heq⟩
    exact ⟨k, hk, heq.symm⟩
  · calc (build_reachability_bdd net).card ≤
        (Finset.range (2 ^ numPlaces net)).card :=
          Finset.card_le_card
            (bddFix_subset_range (Finset.filter_subset _ _))
      _ = 2 ^ numPlaces net := Finset.card_range _

/-- C7: across the fixed-point iterations the satisfied set is
monotonically non-decreasing — every step contains its input, each
iterate from the initial diagram is a superset of the previous one — and
after convergence one more step leaves the reachable-set diagram
unchanged. -/
theorem bdd_iterates_monotone (net : PetriNet) :
    (∀ R : Finset Nat, R ⊆ stepUnion net.transitions (numPlaces net) R) ∧
    (∀ k : Nat,
      (stepUnion net.transitions (numPlaces net))^[k] (initBdd net) ⊆
        (stepUnion net.transitions (numPlaces net))^[k + 1] (initBdd net)) ∧
    stepUnion net.transitions (numPlaces net) (build_reachability_bdd net) =
      build_reachability_bdd net := by
  refine ⟨subset_stepUnion _ _, fun k => ?_,
    build_reachability_bdd_fix net⟩
  rw [Function.iterate_succ_apply']
  exact subset_stepUnion _ _ _

/-- The constraints `build_deadlock_ilp_model` and the refinement loop of
`find_deadlock_with_ilp` put into the PuLP model (`deadlock_ilp.py`):
the dead-marking constraint per transition with nonempty preset, the
always-false constraint `0 >= 1` added for an empty preset, and the
blocking (no-good) constraint added for an unreachable candidate. -/
inductive Constr where
  | atLeastOneEmpty (preset : List Nat)
  | falseConstr
  | block (M : Nat) (numPlaces : Nat)
deriving DecidableEq, Repr

/-- Value of the binary variable `x_i` under the 0/1 assignment whose bits
are those of `A`. -/
def bitVal (A i : Nat) : Int := if A.testBit i then 1 else 0

/-- Satisfaction of one constraint by a 0/1 assignment, with the linear
arithmetic written exactly as in the source:
`sum (1 - x_p) >= 1`, `0 >= 1`, and
`sum_[bit=1] x_i + sum_[bit=0] (1 - x_i) <= num_places - 1`. -/
def constrSat (A : Nat) : Constr → Bool
  | .atLeastOneEmpty ps =>
      decide (1 ≤ (ps.map (fun i => 1 - bitVal A i)).sum)
  | .falseConstr => decide ((1 : Int) ≤ 0)
  | .block M n =>
      decide (((List.range n).map (fun i =>
        if M.testBit i then bitVal A i else 1 - bitVal A i)).sum ≤
          (n : Int) - 1)

/-- `preset_indices` computed inside `build_deadlock_ilp_model`: the place
indices below the place count whose bit is set in the preset mask. -/
def presetIndices (n : Nat) (t : Transition) : List Nat :=
  (List.range n).filter (fun i => t.pre_mask.testBit i)

/-- `build_deadlock_ilp_model` from `deadlock_ilp.py`: one dead-marking
constraint per transition (the always-false constraint `0 >= 1` when the
preset is empty).  The dummy zero objective is irrelevant to
satisfiability and omitted. -/
def build_deadlock_ilp_model (net : PetriNet) : List Constr :=
  net.transitions.map (fun t =>
    let ps := presetIndices (numPlaces net) t
    if ps.isEmpty then Constr.falseConstr else Constr.atLeastOneEmpty ps)

/-- Modelled from the spec: the external solver (PuLP/CBC, outside the
repository) returns one of optimal-with-assignment, infeasible, or an
inconclusive status; the source keeps only `status == "Optimal"` apart. -/
inductive SolverResult where
  | optimal (A : Nat)
  | infeasible
  | inconclusive
deriving DecidableEq, Repr

/-- A sound solver only reports `optimal` with an assignment satisfying
every constraint of the model it was given. -/
def SolverSound (solver : List Constr → SolverResult) : Prop :=
  ∀ cs A, solver cs = SolverResult.optimal A →
    ∀ c ∈ cs, constrSat A c = true

/-- The `while True` refinement loop of `find_deadlock_with_ilp`:
solve, decode the assignment into a marking (`packLowBits` is the
`M |= 1 << i` decoding loop of the source), consult the reachability
oracle, and either stop or append a blocking constraint.  Any non-optimal
solver status and exceeding the iteration cap return `none`, as in the
source.  The second component is ghost instrumentation recording every
decoded candidate; the first component is the source's return value.
The fuel equals `maxIter + 1 - iteration` at every call, so the
iteration-cap test always fires before the fuel runs out. -/
def ilpLoop (solver : List Constr → SolverResult)
    (is_reachable : Nat → Bool) (n maxIter : Nat) :
    Nat → List Constr → Nat → Option Nat × List Nat
  | 0, _, _ => (none, [])
  | fuel + 1, cs, iteration =>
    if iteration + 1 > maxIter then (none, [])
    else
      match solver cs with
      | .infeasible => (none, [])
      | .inconclusive => (none, [])
      | .optimal A =>
        let M := packLowBits A n
        if is_reachable M then (some M, [M])
        else
          let r := ilpLoop solver is_reachable n maxIter fuel
            (cs ++ [Constr.block M n]) (iteration + 1)
          (r.1, M :: r.2)

/-- `find_deadlock_with_ilp` from `deadlock_ilp.py` (the returned elapsed
wall-clock time is dropped): `some M` for a reachable dead marking,
`none` otherwise. -/
def find_deadlock_with_ilp (net : PetriNet)
    (solver : List Constr → SolverResult) (is_reachable : Nat → Bool)
    (maxIter : Nat) : Option Nat :=
  (ilpLoop solver is_reachable (numPlaces net) maxIter (maxIter + 1)
    (build_deadlock_ilp_model net) 0).1

/-- The sequence of candidate markings decoded from successive solver
calls during `find_deadlock_with_ilp`. -/
def deadlockCandidates (net : PetriNet)
    (solver : List Constr → SolverResult) (is_reachable : Nat → Bool)
    (maxIter : Nat) : List Nat :=
  (ilpLoop solver is_reachable (numPlaces net) maxIter (maxIter + 1)
    (build_deadlock_ilp_model net) 0).2

theorem blockSum_bounds (A M : Nat) (l : List Nat) :
    0 ≤ (l.map (fun i =>
        if M.testBit i then bitVal A i else 1 - bitVal A i)).sum ∧
    (l.map (fun i =>
        if M.testBit i then bitVal A i else 1 - bitVal A i)).sum ≤
      (l.length : Int) ∧
    ((l.map (fun i =>
        if M.testBit i then bitVal A i else 1 - bitVal A i)).sum =
        (l.length : Int) ↔
      ∀ i ∈ l, A.testBit i = M.testBit i) := by
  induction l with
  | nil => simp
  | cons i l ih =>
    rcases ih with ⟨h0, hle, hiff⟩
    have hterm : (0 ≤ (if M.testBit i then bitVal A i
          else 1 - bitVal A i) ∧
        (if M.testBit i then bitVal A i else 1 - bitVal A i) ≤ 1) ∧
        ((if M.testBit i then bitVal A i else 1 - bitVal A i) = 1 ↔
          A.testBit i = M.testBit i) := by
      unfold bitVal
      cases hb : M.testBit i <;> cases ha : A.testBit i <;>
        simp [hb, ha]
    rw [List.map_cons, List.sum_cons, List.length_cons]
    refine ⟨by omega, by push_cast; omega, ?_⟩
    constructor
    · intro h j hj
      have h1 := hterm.1.1
      have h2 := hterm.1.2
      rcases List.mem_cons.mp hj with rfl | hj
      · exact hterm.2.mp (by push_cast at h; omega)
      · have htail : (l.map (fun i => if M.testBit i then bitVal A i
            else 1 - bitVal A i)).sum = (l.length : Int) := by
          push_cast at h; omega
        exact (hiff.mp htail) j hj
    · intro hall
      have hhd := hterm.2.mpr (hall i (List.mem_cons_self _ _))
      have htail := hiff.mpr (fun j hj => hall j (List.mem_cons_of_mem _ hj))
      rw [hhd, htail]
      push_cast
      ring

/-- The blocking constraint for `M` over `n` variables is violated exactly
by the assignments agreeing with `M` on every variable: it forces at
least one bit below `n` to differ. -/
theorem block_excludes_exactly (A M n : Nat) :
    constrSat A (Constr.block M n) = false ↔
      ∀ i < n, A.testBit i = M.testBit i := by
  unfold constrSat
  rw [decide_eq_false_iff_not, Int.not_le]
  rcases blockSum_bounds A M (List.range n) with ⟨h0, hle, hiff⟩
  rw [List.length_range] at hle hiff
  constructor
  · intro h i hi
    have hsum : ((List.range n).map (fun i =>
        if M.testBit i then bitVal A i else 1 - bitVal A i)).sum =
          (n : Int) := by omega
    exact hiff.mp hsum i (List.mem_range.mpr hi)
  · intro hall
    have hsum := hiff.mpr (fun i hi => hall i (List.mem_range.mp hi))
    omega

theorem packLowBits_lt (A n : Nat) : packLowBits A n < 2 ^ n := by
  rw [packLowBits_eq_mod]
  exact Nat.mod_lt _ (Nat.pos_pow_of_pos n (by norm_num))

/-- An assignment satisfying the blocking constraint of a marking
`M2 < 2 ^ n` decodes to a different marking. -/
theorem block_sat_ne {A M2 n : Nat} (_hM2 : M2 < 2 ^ n)
    (hsat : constrSat A (Constr.block M2 n) = true) :
    packLowBits A n ≠ M2 := by
  intro heq
  have hfalse : constrSat A (Constr.block M2 n) = false := by
    rw [block_excludes_exactly]
    intro i hi
    have h1 : (packLowBits A n).testBit i = A.testBit i := by
      rw [packLowBits_testBit]
      simp [hi]
    rw [← h1, heq]
  rw [hfalse] at hsat
  exact Bool.false_ne_true hsat

theorem ilpLoop_nodup {solver : List Constr → SolverResult}
    (hs : SolverSound solver) (is_reachable : Nat → Bool)
    (n maxIter : Nat) : ∀ (fuel : Nat) (cs : List Constr)
    (iteration : Nat) (blocked : List Nat),
    (∀ M2 ∈ blocked, Constr.block M2 n ∈ cs ∧ M2 < 2 ^ n) →
    (ilpLoop solver is_reachable n maxIter fuel cs iteration).2.Nodup ∧
    ∀ M2 ∈ blocked,
      M2 ∉ (ilpLoop solver is_reachable n maxIter fuel cs iteration).2 := by
  intro fuel
  induction fuel with
  | zero =>
    intro cs iteration blocked _
    exact ⟨List.nodup_nil, fun M2 _ => List.not_mem_nil M2⟩
  | succ fuel ih =>
    intro cs iteration blocked hb
    unfold ilpLoop
    by_cases hcap : iteration + 1 > maxIter
    · rw [if_pos hcap]
      exact ⟨List.nodup_nil, fun M2 _ => List.not_mem_nil M2⟩
    · rw [if_neg hcap]
      cases hsol : solver cs with
      | infeasible =>
        exact ⟨List.nodup_nil, fun M2 _ => List.not_mem_nil M2⟩
      | inconclusive =>
        exact ⟨List.nodup_nil, fun M2 _ => List.not_mem_nil M2⟩
      | optimal A =>
        dsimp only
        have hsat := hs cs A hsol
        have hne : ∀ M2 ∈ blocked, packLowBits A n ≠ M2 := fun M2 hM2 =>
          block_sat_ne (hb M2 hM2).2 (hsat _ (hb M2 hM2).1)
        by_cases hr : is_reachable (packLowBits A n) = true
        · rw [if_pos hr]
          refine ⟨List.nodup_singleton _, fun M2 hM2 hmem => ?_⟩
          exact hne M2 hM2 (List.mem_singleton.mp hmem).symm
        · rw [if_neg hr]
          have hb2 : ∀ M2 ∈ packLowBits A n :: blocked,
              Constr.block M2 n ∈ cs ++ [Constr.block (packLowBits A n) n] ∧
              M2 < 2 ^ n := by
            intro M2 hM2
            rcases List.mem_cons.mp hM2 with rfl | hM2
            · exact ⟨List.mem_append_right _ (List.mem_singleton_self _),
                packLowBits_lt A n⟩
            · exact ⟨List.mem_append_left _ (hb M2 hM2).1, (hb M2 hM2).2⟩
          have hrec := ih (cs ++ [Constr.block (packLowBits A n) n])
            (iteration + 1) (packLowBits A n :: blocked) hb2
          refine ⟨List.nodup_cons.mpr ⟨hrec.2 _ (List.mem_cons_self _ _),
            hrec.1⟩, fun M2 hM2 hmem => ?_⟩
          rcases List.mem_cons.mp hmem with heq | hmem
          · exact hne M2 hM2 heq.symm
          · exact hrec.2 M2 (List.mem_cons_of_mem _ hM2) hmem

/-- C9: the blocking constraint appended for an unreachable candidate `M`
excludes exactly the assignment `M` (at least one bit below the place
count must differ), and with a sound solver no two solver calls of the
refinement loop decode to the same candidate marking. -/
theorem no_repeated_candidates (net : PetriNet)
    (solver : List Constr → SolverResult) (is_reachable : Nat → Bool)
    (maxIter : Nat) (hs : SolverSound solver) :
    (∀ A M, constrSat A (Constr.block M (numPlaces net)) = false ↔
      ∀ i < numPlaces net, A.testBit i = M.testBit i) ∧
    (deadlockCandidates net solver is_reachable maxIter).Nodup := by
  refine ⟨fun A M => block_excludes_exactly A M (numPlaces net), ?_⟩
  exact (ilpLoop_nodup hs is_reachable (numPlaces net) maxIter
    (maxIter + 1) (build_deadlock_ilp_model net) 0 []
    (fun M2 hM2 => absurd hM2 (List.not_mem_nil M2))).1

/-- A solver for the C9 witness: proposes the empty assignment while the
model admits it, and reports infeasibility afterwards. -/
def solverC9 (cs : List Constr) : SolverResult :=
  if cs.all (constrSat 0) = true then SolverResult.optimal 0
  else SolverResult.infeasible

theorem solverC9_sound : SolverSound solverC9 := by
  intro cs A h
  unfold solverC9 at h
  by_cases hc : cs.all (constrSat 0) = true
  · rw [if_pos hc] at h
    cases h
    exact fun c hcc => List.all_eq_true.mp hc c hcc
  · rw [if_neg hc] at h
    cases h

/-- Witness for C9: on `netA` with a never-reachable oracle, `solverC9`
is sound and the decoded candidate trace has no duplicates. -/
theorem no_repeated_candidates_witness :
    SolverSound solverC9 ∧
    ((∀ A M, constrSat A (Constr.block M (numPlaces netA)) = false ↔
        ∀ i < numPlaces netA, A.testBit i = M.testBit i) ∧
      (deadlockCandidates netA solverC9 (fun _ => false) 5).Nodup) :=
  ⟨solverC9_sound,
    no_repeated_candidates netA solverC9 (fun _ => false) 5 solverC9_sound⟩

/-- Counterexample for C2: on the concrete net `netA`, an inconclusive
solver status, a proven-infeasible model, and an exhausted iteration cap
all produce the very same return value `none` — the claimed distinct
terminal outcomes do not exist in the returned result. -/
theorem deadlock_uncertain_conflated :
    find_deadlock_with_ilp netA (fun _ => SolverResult.inconclusive)
        (fun _ => false) 3 =
      find_deadlock_with_ilp netA (fun _ => SolverResult.infeasible)
        (fun _ => false) 3 ∧
    find_deadlock_with_ilp netA (fun _ => SolverResult.optimal 0)
        (fun _ => false) 0 =
      find_deadlock_with_ilp netA (fun _ => SolverResult.infeasible)
        (fun _ => false) 3 := by
  constructor <;> rfl

/-- C2 amended: the source returns the same value `none` for an
inconclusive first solver status, for a proven-infeasible model, and for
an exhausted iteration cap; the uncertain outcomes are distinguished from
proven absence only in printed log messages, not in the returned
result. -/
theorem deadlock_uncertain_returns_none :
    (∀ (net : PetriNet) (solver : List Constr → SolverResult)
        (is_reachable : Nat → Bool) (maxIter : Nat),
      solver (build_deadlock_ilp_model net) = SolverResult.inconclusive →
      find_deadlock_with_ilp net solver is_reachable maxIter = none) ∧
    (∀ (net : PetriNet) (solver : List Constr → SolverResult)
        (is_reachable : Nat → Bool) (maxIter : Nat),
      solver (build_deadlock_ilp_model net) = SolverResult.infeasible →
      find_deadlock_with_ilp net solver is_reachable maxIter = none) ∧
    (∀ (net : PetriNet) (solver : List Constr → SolverResult)
        (is_reachable : Nat → Bool),
      find_deadlock_with_ilp net solver is_reachable 0 = none) := by
  refine ⟨fun net solver o maxIter hsol => ?_,
    fun net solver o maxIter hsol => ?_, fun net solver o => ?_⟩
  · unfold find_deadlock_with_ilp ilpLoop
    by_cases hcap : 0 + 1 > maxIter
    · rw [if_pos hcap]
    · rw [if_neg hcap, hsol]
  · unfold find_deadlock_with_ilp ilpLoop
    by_cases hcap : 0 + 1 > maxIter
    · rw [if_pos hcap]
    · rw [if_neg hcap, hsol]
  · unfold find_deadlock_with_ilp ilpLoop
    rw [if_pos (by omega)]

/-- Witness for C2's amended statement, instantiated on `netA`. -/
theorem deadlock_uncertain_returns_none_witness :
    find_deadlock_with_ilp netA (fun _ => SolverResult.inconclusive)
        (fun _ => false) 3 = none ∧
    find_deadlock_with_ilp netA (fun _ => SolverResult.infeasible)
        (fun _ => false) 3 = none ∧
    find_deadlock_with_ilp netA (fun _ => SolverResult.optimal 0)
        (fun _ => false) 0 = none :=
  ⟨deadlock_uncertain_returns_none.1 netA _ (fun _ => false) 3 rfl,
   deadlock_uncertain_returns_none.2.1 netA _ (fun _ => false) 3 rfl,
   deadlock_uncertain_returns_none.2.2 netA _ (fun _ => false)⟩

theorem constrSat_falseConstr (A : Nat) :
    constrSat A Constr.falseConstr = false := rfl

theorem ilpLoop_none_of_falseConstr {solver : List Constr → SolverResult}
    (hs : SolverSound solver) (is_reachable : Nat → Bool)
    (n maxIter : Nat) : ∀ (fuel : Nat) (cs : List Constr)
    (iteration : Nat), Constr.falseConstr ∈ cs →
    (ilpLoop solver is_reachable n maxIter fuel cs iteration).1 = none := by
  intro fuel
  induction fuel with
  | zero => intro cs iteration _; rfl
  | succ fuel ih =>
    intro cs iteration hmem
    unfold ilpLoop
    by_cases hcap : iteration + 1 > maxIter
    · rw [if_pos hcap]
    · rw [if_neg hcap]
      cases hsol : solver cs with
      | infeasible => rfl
      | inconclusive => rfl
      | optimal A =>
        have := hs cs A hsol Constr.falseConstr hmem
        rw [constrSat_falseConstr] at this
        exact absurd this Bool.false_ne_true

/-- C3: a transition with an empty preset makes `build_deadlock_ilp_model`
contain the immediately unsatisfiable constraint `0 >= 1`, so no 0/1
assignment satisfies the model and (for any sound solver) the deadlock
search concludes that no dead marking exists for the whole net. -/
theorem empty_preset_no_deadlock (net : PetriNet) (t : Transition)
    (ht : t ∈ net.transitions)
    (hemp : presetIndices (numPlaces net) t = []) :
    Constr.falseConstr ∈ build_deadlock_ilp_model net ∧
    (∀ A : Nat, ¬ ∀ c ∈ build_deadlock_ilp_model net,
      constrSat A c = true) ∧
    (∀ (solver : List Constr → SolverResult) (is_reachable : Nat → Bool)
        (maxIter : Nat), SolverSound solver →
      find_deadlock_with_ilp net solver is_reachable maxIter = none) := by
  have hmem : Constr.falseConstr ∈ build_deadlock_ilp_model net := by
    unfold build_deadlock_ilp_model
    refine List.mem_map.mpr ⟨t, ht, ?_⟩
    rw [hemp]
    rfl
  refine ⟨hmem, fun A hall => ?_, fun solver o maxIter hs => ?_⟩
  · have := hall Constr.falseConstr hmem
    rw [constrSat_falseConstr] at this
    exact absurd this Bool.false_ne_true
  · exact ilpLoop_none_of_falseConstr hs o (numPlaces net) maxIter
      (maxIter + 1) (build_deadlock_ilp_model net) 0 hmem

/-- A one-place net whose single transition has an empty preset and
postset {0}, used as the concrete witness net for C3. -/
def netC : PetriNet := ⟨["p0"], [⟨"t", "t", 0, 1⟩], 1⟩

/-- Witness for C3 on `netC`, whose transition has an empty preset. -/
theorem empty_preset_no_deadlock_witness :
    (⟨"t", "t", 0, 1⟩ : Transition) ∈ netC.transitions ∧
    presetIndices (numPlaces netC) ⟨"t", "t", 0, 1⟩ = [] ∧
    (Constr.falseConstr ∈ build_deadlock_ilp_model netC ∧
     (∀ A : Nat, ¬ ∀ c ∈ build_deadlock_ilp_model netC,
        constrSat A c = true) ∧
     (∀ (solver : List Constr → SolverResult) (is_reachable : Nat → Bool)
         (maxIter : Nat), SolverSound solver →
       find_deadlock_with_ilp netC solver is_reachable maxIter = none)) :=
  ⟨by decide, by decide,
    empty_preset_no_deadlock netC ⟨"t", "t", 0, 1⟩ (by decide) (by decide)⟩

/-- Modelled from the spec: a DiagramNode of the Diagram Manager (the
external `dd` library) — the two canonical terminals plus inner nodes
(variable, low child, high child).  `optimization.py` traverses these
via `.var`, `.low`, `.high` and the comparisons with the terminals 0/1.
Variables are identified by their place index: `get_original_name` maps
the diagram variable name `v<i>_<place>` back to the place name, which is
in bijection with the index `i`. -/
inductive BddNode where
  | bfalse
  | btrue
  | node (v : Nat) (low high : BddNode)
deriving DecidableEq, Repr

/-- `find_optimal_marking` from `optimization.py`.  The score is an
integer or `float('-inf')`, modelled as `WithBot Int` (so `⊥ + w = ⊥`
matches the guarded `score_high += w`); the memo dictionary caches the
pure per-node recursion and does not change the result, so it is
omitted; `weights.get(name, 0)` is modelled by a total weight function.
On a tie (`score_high >= score_low`) the high branch wins, as in the
source, and the winning branch is recorded in the partial assignment
(list-cons shadows older entries exactly like the dict update). -/
def find_optimal_marking (w : Nat → Int) :
    BddNode → WithBot Int × List (Nat × Bool)
  | .bfalse => (⊥, [])
  | .btrue => (((0 : Int) : WithBot Int), [])
  | .node v l h =>
    let rl := find_optimal_marking w l
    let rh := find_optimal_marking w h
    let sh := rh.1 + ((w v : Int) : WithBot Int)
    if rl.1 ≤ sh then (sh, (v, true) :: rh.2)
    else (rl.1, (v, false) :: rl.2)

/-- `complete_and_optimize_marking` from `optimization.py`: complete the
missing places by sign of weight (1 and extra score if the weight is
positive, 0 otherwise), returning the full assignment in place order and
the extra score of the completion. -/
def complete_and_optimize_marking (pmark : List (Nat × Bool))
    (w : Nat → Int) : List Nat → List (Nat × Bool) × Int
  | [] => ([], 0)
  | p :: ps =>
    let r := complete_and_optimize_marking pmark w ps
    match pmark.lookup p with
    | some b => ((p, b) :: r.1, r.2)
    | none =>
      if 0 < w p then ((p, true) :: r.1, r.2 + w p)
      else ((p, false) :: r.1, r.2)

/-- C4: `find_optimal_marking` computes the spec's recursion
`best(FALSE) = -∞`, `best(TRUE) = 0`,
`best(node) = max(best(low), best(high) + weight(var))`, and the returned
partial assignment records, for the variable of each node on the winning
path, the branch achieving the maximum. -/
theorem find_optimal_marking_recursion (w : Nat → Int) :
    (find_optimal_marking w BddNode.bfalse).1 = ⊥ ∧
    (find_optimal_marking w BddNode.btrue).1 = ((0 : Int) : WithBot Int) ∧
    (∀ v l h, (find_optimal_marking w (BddNode.node v l h)).1 =
      max ((find_optimal_marking w l).1)
        ((find_optimal_marking w h).1 + ((w v : Int) : WithBot Int))) ∧
    (∀ v l h, (find_optimal_marking w (BddNode.node v l h)).2 =
      if (find_optimal_marking w l).1 ≤
          (find_optimal_marking w h).1 + ((w v : Int) : WithBot Int)
      then (v, true) :: (find_optimal_marking w h).2
      else (v, false) :: (find_optimal_marking w l).2) := by
  refine ⟨rfl, rfl, fun v l h => ?_, fun v l h => ?_⟩
  · show (if (find_optimal_marking w l).1 ≤
        (find_optimal_marking w h).1 + ((w v : Int) : WithBot Int)
      then ((find_optimal_marking w h).1 + ((w v : Int) : WithBot Int),
        (v, true) :: (find_optimal_marking w h).2)
      else ((find_optimal_marking w l).1,
        (v, false) :: (find_optimal_marking w l).2)).1 = _
    rw [max_def]
    split <;> rfl
  · show (if (find_optimal_marking w l).1 ≤
        (find_optimal_marking w h).1 + ((w v : Int) : WithBot Int)
      then ((find_optimal_marking w h).1 + ((w v : Int) : WithBot Int),
        (v, true) :: (find_optimal_marking w h).2)
      else ((find_optimal_marking w l).1,
        (v, false) :: (find_optimal_marking w l).2)).2 = _
    split <;> rfl

/-- Variable ordering of a reduced ordered diagram: along every path from
the root the variable indices strictly increase (`lo` is a lower bound on
the variables of the subtree).  This is the structural invariant of the
diagrams produced by the Diagram Manager with the fixed variable order. -/
def BddOrdered (lo : Nat) : BddNode → Bool
  | .bfalse => true
  | .btrue => true
  | .node v l h =>
    decide (lo ≤ v) && BddOrdered (v + 1) l && BddOrdered (v + 1) h

/-- Score of a recorded partial assignment: the weight of every variable
assigned 1. -/
def pathScore (w : Nat → Int) (path : List (Nat × Bool)) : Int :=
  (path.map (fun pb => if pb.2 then w pb.1 else 0)).sum

theorem find_optimal_score_eq_pathScore (w : Nat → Int) :
    ∀ (node : BddNode) (s : Int),
      (find_optimal_marking w node).1 = ((s : Int) : WithBot Int) →
      s = pathScore w (find_optimal_marking w node).2 := by
  intro node
  induction node with
  | bfalse =>
    intro s hs
    exact absurd hs.symm WithBot.coe_ne_bot
  | btrue =>
    intro s hs
    have : s = 0 := WithBot.coe_inj.mp hs.symm
    simp [this, pathScore, find_optimal_marking]
  | node v l h ihl ihh =>
    intro s hs
    unfold find_optimal_marking at hs ⊢
    by_cases hcmp : (find_optimal_marking w l).1 ≤
        (find_optimal_marking w h).1 + ((w v : Int) : WithBot Int)
    · rw [if_pos hcmp] at hs ⊢
      cases hx : (find_optimal_marking w h).1 using WithBot.recBotCoe with
      | bot =>
        rw [hx, WithBot.bot_add] at hs
        exact absurd hs.symm WithBot.coe_ne_bot
      | coe s2 =>
        rw [hx, ← WithBot.coe_add] at hs
        have hsum : s = s2 + w v := (WithBot.coe_inj.mp hs).symm
        have hps : pathScore w ((v, true) ::
            (find_optimal_marking w h).2) =
            w v + pathScore w (find_optimal_marking w h).2 := by
          simp [pathScore]
        rw [hsum, hps, ← ihh s2 hx]
        ring
    · rw [if_neg hcmp] at hs ⊢
      have hps : pathScore w ((v, false) ::
          (find_optimal_marking w l).2) =
          pathScore w (find_optimal_marking w l).2 := by
        simp [pathScore]
      rw [hps, ← ihl s hs]

theorem path_keys_ge (w : Nat → Int) :
    ∀ (node : BddNode) (lo : Nat), BddOrdered lo node = true →
      ∀ pb ∈ (find_optimal_marking w node).2, lo ≤ pb.1 := by
  intro node
  induction node with
  | bfalse => intro lo _ pb hpb; exact absurd hpb (List.not_mem_nil pb)
  | btrue => intro lo _ pb hpb; exact absurd hpb (List.not_mem_nil pb)
  | node v l h ihl ihh =>
    intro lo hord pb hpb
    unfold BddOrdered at hord
    rcases Bool.and_eq_true_iff.mp hord with ⟨h1, hordh⟩
    rcases Bool.and_eq_true_iff.mp h1 with ⟨hlo, hordl⟩
    have hlov : lo ≤ v := of_decide_eq_true hlo
    unfold find_optimal_marking at hpb
    by_cases hcmp : (find_optimal_marking w l).1 ≤
        (find_optimal_marking w h).1 + ((w v : Int) : WithBot Int)
    · rw [if_pos hcmp] at hpb
      rcases List.mem_cons.mp hpb with rfl | hpb
      · exact hlov
      · exact le_trans (le_trans hlov (Nat.le_succ v))
          (ihh (v + 1) hordh pb hpb)
    · rw [if_neg hcmp] at hpb
      rcases List.mem_cons.mp hpb with rfl | hpb
      · exact hlov
      · exact le_trans (le_trans hlov (Nat.le_succ v))
          (ihl (v + 1) hordl pb hpb)

theorem path_keys_nodup (w : Nat → Int) :
    ∀ (node : BddNode) (lo : Nat), BddOrdered lo node = true →
      ((find_optimal_marking w node).2.map Prod.fst).Nodup := by
  intro node
  induction node with
  | bfalse => intro lo _; exact List.nodup_nil
  | btrue => intro lo _; exact List.nodup_nil
  | node v l h ihl ihh =>
    intro lo hord
    unfold BddOrdered at hord
    rcases Bool.and_eq_true_iff.mp hord with ⟨h1, hordh⟩
    rcases Bool.and_eq_true_iff.mp h1 with ⟨_, hordl⟩
    unfold find_optimal_marking
    by_cases hcmp : (find_optimal_marking w l).1 ≤
        (find_optimal_marking w h).1 + ((w v : Int) : WithBot Int)
    · rw [if_pos hcmp, List.map_cons]
      refine List.nodup_cons.mpr ⟨fun hmem => ?_, ihh (v + 1) hordh⟩
      rcases List.mem_map.mp hmem with ⟨pb, hpb, hfst⟩
      have := path_keys_ge w h (v + 1) hordh pb hpb
      omega
    · rw [if_neg hcmp, List.map_cons]
      refine List.nodup_cons.mpr ⟨fun hmem => ?_, ihl (v + 1) hordl⟩
      rcases List.mem_map.mp hmem with ⟨pb, hpb, hfst⟩
      have := path_keys_ge w l (v + 1) hordl pb hpb
      omega

/-- Contribution of place `p` to the verification sum when it is a key of
the partial assignment, 0 otherwise. -/
def lookupScore (w : Nat → Int) (path : List (Nat × Bool)) (p : Nat) : Int :=
  match path.lookup p with
  | some b => w p * (if b then 1 else 0)
  | none => 0

theorem lookup_cons_ne {v p : Nat} {b : Bool} {rest : List (Nat × Bool)}
    (h : p ≠ v) : List.lookup p ((v, b) :: rest) = List.lookup p rest := by
  simp only [List.lookup]
  rw [beq_eq_false_iff_ne.mpr h]

theorem lookup_cons_self (v : Nat) (b : Bool) (rest : List (Nat × Bool)) :
    List.lookup v ((v, b) :: rest) = some b := by
  simp [List.lookup]

theorem sum_lookupScore (w : Nat → Int) :
    ∀ (path : List (Nat × Bool)) (places : List Nat),
      (path.map Prod.fst).Nodup → places.Nodup →
      (∀ pb ∈ path, pb.1 ∈ places) →
      (places.map (lookupScore w path)).sum = pathScore w path := by
  intro path
  induction path with
  | nil =>
    intro places _ _ _
    rw [pathScore]
    simp only [List.map_nil, List.sum_nil]
    apply List.sum_eq_zero
    intro x hx
    rcases List.mem_map.mp hx with ⟨p, _, rfl⟩
    rfl
  | cons pb rest ih =>
    rcases pb with ⟨v, b⟩
    intro places hknd hpnd hsub
    rw [List.map_cons] at hknd
    have hvk : v ∉ rest.map Prod.fst := (List.nodup_cons.mp hknd).1
    have hknd' : (rest.map Prod.fst).Nodup := (List.nodup_cons.mp hknd).2
    have hv : v ∈ places := hsub (v, b) (List.mem_cons_self _ _)
    have hsum1 : (places.map (lookupScore w ((v, b) :: rest))).sum =
        places.toFinset.sum (lookupScore w ((v, b) :: rest)) :=
      (List.sum_toFinset _ hpnd).symm
    have hsplit : places.toFinset.sum (lookupScore w ((v, b) :: rest)) =
        lookupScore w ((v, b) :: rest) v +
          (places.toFinset.erase v).sum (lookupScore w ((v, b) :: rest)) :=
      (Finset.add_sum_erase _ _ (List.mem_toFinset.mpr hv)).symm
    have hcongr : (places.toFinset.erase v).sum
        (lookupScore w ((v, b) :: rest)) =
        (places.toFinset.erase v).sum (lookupScore w rest) := by
      apply Finset.sum_congr rfl
      intro p hp
      have hne : p ≠ v := (Finset.mem_erase.mp hp).1
      unfold lookupScore
      rw [lookup_cons_ne hne]
    have herase : places.toFinset.erase v = (places.erase v).toFinset := by
      ext x
      rw [Finset.mem_erase, List.mem_toFinset, List.mem_toFinset,
        hpnd.mem_erase_iff]
    have hrec : ((places.erase v).map (lookupScore w rest)).sum =
        pathScore w rest := by
      apply ih (places.erase v) hknd' (hpnd.erase v)
      intro pb2 hpb2
      have hne : pb2.1 ≠ v := by
        intro heq
        exact hvk (heq ▸ List.mem_map_of_mem Prod.fst hpb2)
      exact (List.mem_erase_of_ne hne).mpr (hsub pb2
        (List.mem_cons_of_mem _ hpb2))
    have hself : lookupScore w ((v, b) :: rest) v =
        (if b then w v else 0) := by
      unfold lookupScore
      rw [lookup_cons_self]
      cases b <;> simp
    have hfinal : pathScore w ((v, b) :: rest) =
        (if b then w v else 0) + pathScore w rest := by
      simp [pathScore]
    rw [hsum1, hsplit, hcongr, herase,
      List.sum_toFinset _ (hpnd.erase v), hrec, hself, hfinal]

theorem complete_sum (pmark : List (Nat × Bool)) (w : Nat → Int) :
    ∀ places : List Nat,
      (((complete_and_optimize_marking pmark w places).1).map
        (fun pb => w pb.1 * (if pb.2 then 1 else 0))).sum =
      (complete_and_optimize_marking pmark w places).2 +
        (places.map (lookupScore w pmark)).sum := by
  intro places
  induction places with
  | nil => simp [complete_and_optimize_marking]
  | cons p ps ih =>
    unfold complete_and_optimize_marking
    cases hl : pmark.lookup p with
    | some b =>
      dsimp only
      simp only [List.map_cons, List.sum_cons]
      rw [ih]
      unfold lookupScore
      rw [hl]
      ring
    | none =>
      dsimp only
      by_cases hw : 0 < w p
      · rw [if_pos hw]
        simp only [List.map_cons, List.sum_cons]
        rw [ih]
        unfold lookupScore
        rw [hl]
        simp only [if_true]
        ring
      · rw [if_neg hw]
        simp only [List.map_cons, List.sum_cons]
        rw [ih]
        unfold lookupScore
        rw [hl]
        simp

/-- C5: for every run of the optimization task, the reported objective
value — best path score plus don't-care completion score — exactly equals
the independently recomputed weighted sum over the completed final
assignment (`check_sum` in `main.py`).  The diagram is ordered with the
fixed variable order and its variables all denote places. -/
theorem optimization_objective_consistent (w : Nat → Int) (node : BddNode)
    (places : List Nat) (s : Int)
    (hord : BddOrdered 0 node = true) (hpnd : places.Nodup)
    (hsub : ∀ pb ∈ (find_optimal_marking w node).2, pb.1 ∈ places)
    (hs : (find_optimal_marking w node).1 = ((s : Int) : WithBot Int)) :
    s + (complete_and_optimize_marking (find_optimal_marking w node).2
        w places).2 =
      (((complete_and_optimize_marking (find_optimal_marking w node).2
          w places).1).map
        (fun pb => w pb.1 * (if pb.2 then 1 else 0))).sum := by
  rw [complete_sum, sum_lookupScore w _ places
      (path_keys_nodup w node 0 hord) hpnd hsub,
    ← find_optimal_score_eq_pathScore w node s hs]
  ring

/-- Weight function for the C5 witness: weight 2 on place 0, −3 on every
other place. -/
def wC5 : Nat → Int := fun i => if i = 0 then 2 else -3

/-- Diagram for the C5 witness: a single decision node on place 0 with
both branches accepting. -/
def nodeC5 : BddNode := BddNode.node 0 BddNode.btrue BddNode.btrue

/-- Witness for C5: on `nodeC5` over places [0, 1] with weights `wC5`,
the best score is 2, and 2 plus the completion score equals the
recomputed weighted sum. -/
theorem optimization_objective_consistent_witness :
    BddOrdered 0 nodeC5 = true ∧
    ([0, 1] : List Nat).Nodup ∧
    (∀ pb ∈ (find_optimal_marking wC5 nodeC5).2, pb.1 ∈ [0, 1]) ∧
    (find_optimal_marking wC5 nodeC5).1 = ((2 : Int) : WithBot Int) ∧
    (2 : Int) + (complete_and_optimize_marking
        (find_optimal_marking wC5 nodeC5).2 wC5 [0, 1]).2 =
      (((complete_and_optimize_marking (find_optimal_marking wC5 nodeC5).2
          wC5 [0, 1]).1).map
        (fun pb => wC5 pb.1 * (if pb.2 then 1 else 0))).sum :=
  ⟨by decide, by decide, by decide, by decide,
    optimization_objective_consistent wC5 nodeC5 [0, 1] 2 (by decide)
      (by decide) (by decide) (by decide)⟩
